import Mathlib

/-!
Verification of the habit-tracker core (src/habit.js) against its
natural-language specification.

Modelling conventions:
* JavaScript objects used as string-keyed dictionaries are modelled as
  association lists `List (String × α)`; property read is first-match
  lookup, property write replaces the first matching key in place (or
  appends a fresh key at the end, matching JS insertion order), and
  `delete` removes the key.  JS objects never hold duplicate keys, so on
  the lists actually produced by the operations the models agree with JS.
* JS string truthiness (`if (s)`) is `s ≠ ""`; object/array values are
  always truthy; absent properties are falsy.
* Calendar dates inside the streak calculator are modelled as integer day
  numbers (the value `new Date(key).getTime() / 86400000` that the code
  subtracts and rounds); `formatDate` of "now" is the parameter `today`
  and `formatDate(new Date(Date.now() - 86400000))` is `today - 1`.
* Parsed JSON values (the import payload) are modelled by the inductive
  `JVal`; `chrome.storage` persistence, rendering and DOM wiring carry no
  domain logic and are out of scope.
-/

/-- Model of JavaScript `String.prototype.trim`: drop whitespace from both
ends of the string. -/
def jsTrim (s : String) : String :=
  String.mk (((s.data.dropWhile Char.isWhitespace).reverse.dropWhile
    Char.isWhitespace).reverse)

/-- Property read on a JS object modelled as an association list: the value
at the first matching key, if any. -/
def jsLookup (l : List (String × α)) (k : String) : Option α :=
  (l.find? (fun p => p.1 = k)).map Prod.snd

/-- Property write on a JS object: replace the value at an existing key in
place, otherwise append the new key at the end (JS insertion order). -/
def jsSet : List (String × α) → String → α → List (String × α)
  | [], k, v => [(k, v)]
  | (k', v') :: rest, k, v =>
      if k' = k then (k, v) :: rest else (k', v') :: jsSet rest k v

/-- The JS `delete` operator on a JS object: remove the key. -/
def jsDelete (l : List (String × α)) (k : String) : List (String × α) :=
  l.filter (fun p => p.1 ≠ k)

/-- A habit record, from src/habit.js lines 92-97: `{ id, name, order,
createdAt }`. -/
structure Habit where
  id : String
  name : String
  order : Int
  createdAt : String
deriving DecidableEq, Repr

/-- One habit's per-date record: date key (canonical `YYYY-MM-DD` string)
to the stored state string. -/
abbrev HabitRecord := List (String × String)

/-- The completion map: habit id to per-date record (the module-level
`completions` object). -/
abbrev Completions := List (String × HabitRecord)

/-- The in-memory app state owned by the store: the module-level `habits`
array and `completions` object of src/habit.js lines 16-17. -/
structure AppState where
  habits : List Habit
  completions : Completions
deriving DecidableEq, Repr

/-- From src/habit.js lines 144-151, the cell update inside
`toggleCompletion`: an absent or falsy cell becomes `'done'`, a `'done'`
cell becomes `'skipped'`, and any other (truthy) cell is deleted. -/
def toggleRecord (r : HabitRecord) (dateStr : String) : HabitRecord :=
  match jsLookup r dateStr with
  | none => jsSet r dateStr "done"
  | some v =>
      if v = "" then jsSet r dateStr "done"
      else if v = "done" then jsSet r dateStr "skipped"
      else jsDelete r dateStr

/-- From src/habit.js lines 139-156 (`toggleCompletion`): ensure the habit
has a per-date record (`if (!completions[habitId]) completions[habitId] =
{}`), then cycle the cell at `dateStr`. -/
def toggleCompletion (cs : Completions) (habitId dateStr : String) :
    Completions :=
  jsSet cs habitId (toggleRecord ((jsLookup cs habitId).getD []) dateStr)

/-- From src/habit.js lines 158-160 (`getHabitState`):
`completions[habitId]?.[dateStr] || null`; a falsy stored value reads back
as null (untracked). -/
def getHabitState (cs : Completions) (habitId dateStr : String) :
    Option String :=
  match (jsLookup cs habitId).bind (fun r => jsLookup r dateStr) with
  | some v => if v = "" then none else some v
  | none => none

/-- From src/habit.js lines 89-107 (`addHabit`): compute `maxOrder` by
folding `Math.max` of `h.order || 0` from 0 (`|| 0` only guards a missing
`order`, which the typed model always has), build the habit with trimmed
name and `order = maxOrder + 1`, push it, and give it an empty completion
entry.  The fresh id (`generateId()`) and timestamp are parameters. -/
def addHabit (st : AppState) (nm newId ts : String) : AppState :=
  let maxOrder := st.habits.foldl (fun m h => max m h.order) 0
  let habit : Habit :=
    { id := newId, name := jsTrim nm, order := maxOrder + 1, createdAt := ts }
  { habits := st.habits ++ [habit],
    completions := jsSet st.completions newId [] }

/-- From src/habit.js lines 363-371, the add-habit form handler: `addHabit`
is called only when the input's trimmed value is truthy (non-empty); a
blank input does nothing. -/
def submitAddHabit (st : AppState) (input newId ts : String) : AppState :=
  if jsTrim input = "" then st else addHabit st input newId ts

/-- From src/habit.js lines 109-127 (`deleteHabit`, confirmed branch): if
the id is unknown this is a no-op; otherwise remove the habit from the
list and `delete completions[habitId]`. -/
def deleteHabitConfirmed (st : AppState) (habitId : String) : AppState :=
  match st.habits.find? (fun h => h.id = habitId) with
  | none => st
  | some _ =>
      { habits := st.habits.filter (fun h => ¬ (h.id = habitId)),
        completions := jsDelete st.completions habitId }

/-- A stored per-habit completion value as read back from storage in
`loadData`: either the legacy array of date strings or the current
object form. -/
inductive StoredRecord where
  | dates : List String → StoredRecord
  | record : HabitRecord → StoredRecord
deriving DecidableEq

/-- From src/habit.js lines 44-55 (`loadData` migration loop): a legacy
array entry is rebuilt as an object mapping each listed date to `'done'`;
object entries are left untouched. -/
def migrateRecord : StoredRecord → HabitRecord
  | .dates ds => ds.foldl (fun m d => jsSet m d "done") []
  | .record r => r

/-- The `loadData` migration applied to every key of the stored
completions object. -/
def migrateCompletions (cs : List (String × StoredRecord)) : Completions :=
  cs.map (fun p => (p.1, migrateRecord p.2))

/-- Splice removal `habits.splice(fromIndex, 1)`: drop the element at the
given position (identity past the end). -/
def removeAt : List α → Nat → List α
  | [], _ => []
  | _ :: t, 0 => t
  | h :: t, n + 1 => h :: removeAt t n

/-- Splice insertion `habits.splice(toIndex, 0, moved)`: insert at the
given position, appending at the end when the index is past the end (JS
splice clamps). -/
def insertAt : List α → Nat → α → List α
  | l, 0, x => x :: l
  | [], _ + 1, x => [x]
  | h :: t, n + 1, x => h :: insertAt t n x

/-- From src/habit.js lines 166-168: `habits.forEach((habit, index) =>
habit.order = index)`, reassigning positional orders from a running
index. -/
def setOrders : List Habit → Nat → List Habit
  | [], _ => []
  | h :: t, i => { h with order := (i : Int) } :: setOrders t (i + 1)

/-- From src/habit.js lines 162-172 (`reorderHabits`): splice the habit
out of the stored `habits` array at `fromIndex`, splice it back in at
`toIndex`, then reassign every `order` to the positional index.  `none`
when `fromIndex` is out of range (JS would splice `undefined` into the
array, which the typed model cannot hold). -/
def reorderHabits (l : List Habit) (fromIndex toIndex : Nat) :
    Option (List Habit) :=
  (l[fromIndex]?).map (fun moved =>
    setOrders (insertAt (removeAt l fromIndex) toIndex moved) 0)

/-- From src/habit.js line 276: the rendering order `[...habits].sort((a,
b) => (a.order || 0) - (b.order || 0))`, a stable sort by the `order`
field (insertion sort is stable, like the JS engine's sort). -/
def sortedByOrder (l : List Habit) : List Habit :=
  l.insertionSort (fun a b => a.order ≤ b.order)

/-- The reorder operation as the specification words it: remove the habit
at `fromIndex` of the list *as sorted by the order field*, reinsert it at
`toIndex` there, then reassign positional orders.  Stated for comparison
with `reorderHabits`, which splices the stored array instead. -/
def claimedReorder (l : List Habit) (fromIndex toIndex : Nat) :
    Option (List Habit) :=
  ((sortedByOrder l)[fromIndex]?).map (fun moved =>
    setOrders (insertAt (removeAt (sortedByOrder l) fromIndex) toIndex moved) 0)

/-- A date-keyed completion entry for the streak calculator, the date
being an integer day number (see the module docstring). -/
abbrev DateEntry := Int × String

/-- From src/habit.js lines 178-180: the dates whose stored state is
exactly `'done'`. -/
def doneDates (entries : List DateEntry) : List Int :=
  (entries.filter (fun p => p.2 = "done")).map Prod.fst

/-- From src/habit.js lines 192-202, the current-streak loop: walk the
descending-sorted done dates and count while each consecutive gap is
exactly one day, stopping at the first other gap. -/
def currentLoop : Int → List Int → Nat
  | _, [] => 0
  | prev, d :: rest => if prev - d = 1 then currentLoop d rest + 1 else 0

/-- From src/habit.js lines 209-220, the longest-streak loop over the
ascending-sorted done dates: a gap of exactly one day extends the running
streak and updates the maximum, a gap greater than one resets the running
streak to 1, and any other gap (impossible for distinct dates) changes
nothing. -/
def longestLoop : Int → Nat → Nat → List Int → Nat
  | _, _, longest, [] => longest
  | prev, temp, longest, d :: rest =>
      if d - prev = 1 then longestLoop d (temp + 1) (max longest (temp + 1)) rest
      else if d - prev > 1 then longestLoop d 1 longest rest
      else longestLoop d temp longest rest

/-- The `{ current, longest }` result of `calculateStreak`. -/
structure Streak where
  current : Nat
  longest : Nat
deriving DecidableEq, Repr

/-- From src/habit.js lines 184-203: sort the done dates descending (the
comparator `new Date(b) - new Date(a)`), and if the most recent one is
today or yesterday count the anchor plus the run of one-day gaps. -/
def computeCurrent (today : Int) (dd : List Int) : Nat :=
  match dd.insertionSort (· ≥ ·) with
  | [] => 0
  | d0 :: rest =>
      if d0 = today ∨ d0 = today - 1 then currentLoop d0 rest + 1 else 0

/-- From src/habit.js lines 205-220: sort the done dates ascending and run
the longest-streak scan starting from `longest = 1, tempStreak = 1`. -/
def computeLongest (dd : List Int) : Nat :=
  match dd.insertionSort (· ≤ ·) with
  | [] => 1
  | d0 :: rest => longestLoop d0 1 1 rest

/-- From src/habit.js lines 175-223 (`calculateStreak`): completion maps
with no `'done'` date yield `{0, 0}`; otherwise the current and longest
streaks are computed from the done dates as above. -/
def calculateStreak (today : Int) (entries : List DateEntry) : Streak :=
  let dd := doneDates entries
  if dd = [] then ⟨0, 0⟩
  else ⟨computeCurrent today dd, computeLongest dd⟩

/-- The view window's end date at load, src/habit.js line 19:
`viewEndDate = new Date()` (today). -/
def initViewEnd (today : Int) : Int := today

/-- From src/habit.js lines 430-434 (`prevWeek` handler):
`viewEndDate -= 14 days`, unconditionally. -/
def pageBack (viewEnd : Int) : Int := viewEnd - 14

/-- From src/habit.js lines 436-449 (`nextWeek` handler): propose
`viewEndDate + 14 days` and keep it if it does not pass today, otherwise
clamp to today. -/
def pageForward (today viewEnd : Int) : Int :=
  if viewEnd + 14 ≤ today then viewEnd + 14 else today

/-- From src/habit.js lines 451-455 (`todayBtn` handler):
`viewEndDate = new Date()`. -/
def resetToToday (today : Int) : Int := today

/-- A parsed JSON value (the result of `JSON.parse` on an import file).
Numbers are modelled as integers, which covers every number the exporter
writes. -/
inductive JVal where
  | null : JVal
  | bool : Bool → JVal
  | num : Int → JVal
  | str : String → JVal
  | arr : List JVal → JVal
  | obj : List (String × JVal) → JVal

/-- JS property access `v[k]` on a parsed value: field lookup on objects;
`undefined` (merged with `null`, which is equally falsy and never reaches
a `typeof` test in the code) on everything else.  Array access by a
non-index key such as a field name also yields `undefined`. -/
def getFieldJ (v : JVal) (k : String) : JVal :=
  match v with
  | .obj fs => (jsLookup fs k).getD .null
  | _ => .null

/-- JS truthiness of a parsed value. -/
def jsTruthy : JVal → Bool
  | .null => false
  | .bool b => b
  | .num n => n ≠ 0
  | .str s => s ≠ ""
  | .arr _ => true
  | .obj _ => true

/-- Whether `typeof v === 'object'` holds in JS: true for objects, arrays
and `null`. -/
def typeofObject : JVal → Bool
  | .null => true
  | .arr _ => true
  | .obj _ => true
  | _ => false

/-- Whether `Array.isArray(v)` holds. -/
def isArrayJ : JVal → Bool
  | .arr _ => true
  | _ => false

/-- Whether `typeof v === 'string'` holds. -/
def isStringJ : JVal → Bool
  | .str _ => true
  | _ => false

/-- From src/habit.js lines 506-511: a habit entry passes validation when
`habit.id` is truthy and a string and `habit.name` is truthy and a string
(the negation of the `throw` condition). -/
def validHabitJ (h : JVal) : Bool :=
  jsTruthy (getFieldJ h "id") && isStringJ (getFieldJ h "id") &&
  jsTruthy (getFieldJ h "name") && isStringJ (getFieldJ h "name")

/-- From src/habit.js lines 493-538 (`importData`), the validation of the
parsed payload: throw unless `data.habits` is an array (`!data.habits ||
!Array.isArray(data.habits)`; arrays are always truthy), throw when some
habit entry fails `validHabitJ`, and throw when `data.completions` is
truthy but not of object type.  On success the result carries the habits
array and the effective completions `data.completions || {}` that the
confirmed branch assigns. -/
def importData (data : JVal) : Except Unit (JVal × JVal) :=
  match getFieldJ data "habits" with
  | .arr hs =>
      if hs.all validHabitJ then
        let complV := getFieldJ data "completions"
        if jsTruthy complV && !typeofObject complV then .error ()
        else .ok (.arr hs, if jsTruthy complV then complV else .obj [])
      else .error ()
  | _ => .error ()

/-- The import flow on the in-memory pair `(habits, completions)` (held
here as parsed values, since the confirmed branch of src/habit.js lines
521-523 assigns the parsed payload verbatim): any thrown validation error
is caught and leaves the state untouched; a validated payload replaces
the state wholesale. -/
def importFlow (st : JVal × JVal) (data : JVal) : JVal × JVal :=
  match importData data with
  | .error _ => st
  | .ok hc => hc

/-- From src/habit.js lines 473-480 (`exportData`): the versioned envelope
`{ version: 1, exportedAt, habits, completions }` built from the current
in-memory state, with `exportedAt` a timestamp parameter. -/
def encodeHabit (h : Habit) : JVal :=
  .obj [("id", .str h.id), ("name", .str h.name), ("order", .num h.order),
        ("createdAt", .str h.createdAt)]

/-- JSON form of one per-date record. -/
def encodeRecord (r : HabitRecord) : JVal :=
  .obj (r.map (fun p => (p.1, JVal.str p.2)))

/-- JSON form of the completion map. -/
def encodeCompletions (cs : Completions) : JVal :=
  .obj (cs.map (fun p => (p.1, encodeRecord p.2)))

/-- The export envelope of src/habit.js lines 474-479. -/
def exportData (ts : String) (st : AppState) : JVal :=
  .obj [("version", .num 1), ("exportedAt", .str ts),
        ("habits", .arr (st.habits.map encodeHabit)),
        ("completions", encodeCompletions st.completions)]

/-- Read a typed habit back out of a parsed habit entry; `none` when a
field is missing or of the wrong shape. -/
def decodeHabit (v : JVal) : Option Habit :=
  match getFieldJ v "id", getFieldJ v "name", getFieldJ v "order",
      getFieldJ v "createdAt" with
  | .str i, .str n, .num o, .str c =>
      some { id := i, name := n, order := o, createdAt := c }
  | _, _, _, _ => none

/-- Read a typed habit list back out of a list of parsed entries. -/
def decodeHabitList : List JVal → Option (List Habit)
  | [] => some []
  | v :: rest =>
      match decodeHabit v, decodeHabitList rest with
      | some h, some t => some (h :: t)
      | _, _ => none

/-- Read a typed habit list back out of a parsed habits value. -/
def decodeHabits (v : JVal) : Option (List Habit) :=
  match v with
  | .arr hs => decodeHabitList hs
  | _ => none

/-- Read one typed per-date record back out of parsed object fields: every
field must be a string. -/
def decodeRecordFields : List (String × JVal) → Option HabitRecord
  | [] => some []
  | (k, .str s) :: rest =>
      match decodeRecordFields rest with
      | some t => some ((k, s) :: t)
      | none => none
  | _ => none

/-- Read one typed per-date record back out of a parsed value. -/
def decodeRecord : JVal → Option HabitRecord
  | .obj fs => decodeRecordFields fs
  | _ => none

/-- Read a typed completion map back out of parsed object fields. -/
def decodeCompletionFields : List (String × JVal) → Option Completions
  | [] => some []
  | (k, v) :: rest =>
      match decodeRecord v, decodeCompletionFields rest with
      | some r, some t => some ((k, r) :: t)
      | _, _ => none

/-- Read a typed completion map back out of a parsed value. -/
def decodeCompletions : JVal → Option Completions
  | .obj fs => decodeCompletionFields fs
  | _ => none

/-- The completion-map invariant of the data model: every stored cell
value is exactly `"done"` or `"skipped"`. -/
def CompletionValuesOk (cs : Completions) : Prop :=
  ∀ p ∈ cs, ∀ q ∈ p.2, q.2 = "done" ∨ q.2 = "skipped"

instance : DecidablePred CompletionValuesOk := fun cs =>
  inferInstanceAs (Decidable (∀ p ∈ cs, ∀ q ∈ p.2, q.2 = "done" ∨ q.2 = "skipped"))

/-! ### Association-list (JS object) lemmas -/

theorem jsLookup_nil (k : String) : jsLookup ([] : List (String × α)) k = none := rfl

theorem jsLookup_jsSet_self (l : List (String × α)) (k : String) (v : α) :
    jsLookup (jsSet l k v) k = some v := by
  induction l with
  | nil => simp [jsSet, jsLookup]
  | cons p t ih =>
      obtain ⟨k', v'⟩ := p
      by_cases h : k' = k
      · simp [jsSet, h, jsLookup]
      · simp only [jsSet, if_neg h]
        simpa [jsLookup, List.find?_cons, h] using ih

theorem jsLookup_jsDelete_self (l : List (String × α)) (k : String) :
    jsLookup (jsDelete l k) k = none := by
  cases hf : (jsDelete l k).find? (fun p => p.1 = k) with
  | none => simp [jsLookup, hf]
  | some p =>
      have h1 := List.find?_some hf
      have h2 := List.of_mem_filter (List.mem_of_find?_eq_some hf)
      simp at h1 h2
      exact absurd h1 h2

theorem mem_jsSet {l : List (String × α)} {k : String} {v : α} {p : String × α}
    (hp : p ∈ jsSet l k v) : p = (k, v) ∨ p ∈ l := by
  induction l with
  | nil => simpa [jsSet] using hp
  | cons q t ih =>
      obtain ⟨k', v'⟩ := q
      by_cases h : k' = k
      · simp only [jsSet, if_pos h, List.mem_cons] at hp
        rcases hp with h1 | h1
        · exact Or.inl h1
        · exact Or.inr (List.mem_cons_of_mem _ h1)
      · simp only [jsSet, if_neg h, List.mem_cons] at hp
        rcases hp with h1 | h1
        · exact Or.inr (by simp [h1])
        · rcases ih h1 with h2 | h2
          · exact Or.inl h2
          · exact Or.inr (by simp [h2])

theorem mem_jsDelete {l : List (String × α)} {k : String} {p : String × α}
    (hp : p ∈ jsDelete l k) : p ∈ l :=
  List.mem_of_mem_filter hp

theorem key_mem_of_jsLookup_some {l : List (String × α)} {k : String} {v : α}
    (h : jsLookup l k = some v) : k ∈ l.map Prod.fst := by
  unfold jsLookup at h
  cases hf : l.find? (fun p => p.1 = k) with
  | none => simp [hf] at h
  | some p =>
      have hmem := List.mem_of_find?_eq_some hf
      have hkey := List.find?_some hf
      have : p.1 = k := by simpa using hkey
      exact this ▸ List.mem_map_of_mem Prod.fst hmem

/-! ### Toggle-cycle lemmas -/

/-- The cell value after a toggle, as a function of the cell value before
it. -/
theorem jsLookup_toggleRecord (r : HabitRecord) (d : String) :
    jsLookup (toggleRecord r d) d =
      (match jsLookup r d with
        | none => some "done"
        | some v =>
            if v = "" then some "done"
            else if v = "done" then some "skipped" else none) := by
  unfold toggleRecord
  cases h : jsLookup r d with
  | none => simp [jsLookup_jsSet_self]
  | some v =>
      by_cases h1 : v = ""
      · simp [h1, jsLookup_jsSet_self]
      · by_cases h2 : v = "done"
        · simp [h1, h2, jsLookup_jsSet_self]
        · simp [h1, h2, jsLookup_jsDelete_self]

/-- The observed state after a toggle is the observed state of the toggled
record. -/
theorem getHabitState_toggleCompletion (cs : Completions) (id d : String) :
    getHabitState (toggleCompletion cs id d) id d =
      (match jsLookup (toggleRecord ((jsLookup cs id).getD []) d) d with
        | some v => if v = "" then none else some v
        | none => none) := by
  simp [getHabitState, toggleCompletion, jsLookup_jsSet_self]

/-- An untracked cell reads as `none` exactly when the stored cell is
absent or falsy. -/
theorem getHabitState_eq_none_iff (cs : Completions) (id d : String) :
    getHabitState cs id d = none ↔
      (jsLookup ((jsLookup cs id).getD []) d = none ∨
        jsLookup ((jsLookup cs id).getD []) d = some "") := by
  unfold getHabitState
  cases hc : jsLookup cs id with
  | none => simp [jsLookup_nil]
  | some r =>
      cases hr : jsLookup r d with
      | none => simp [hr]
      | some v =>
          by_cases h1 : v = "" <;> simp [hr, h1]

/-- A tracked (truthy) observed state is exactly the stored cell value. -/
theorem getHabitState_eq_some_iff (cs : Completions) (id d v : String)
    (hv : v ≠ "") :
    getHabitState cs id d = some v ↔
      jsLookup ((jsLookup cs id).getD []) d = some v := by
  unfold getHabitState
  cases hc : jsLookup cs id with
  | none => simp [jsLookup_nil]
  | some r =>
      cases hr : jsLookup r d with
      | none => simp [hr]
      | some w =>
          by_cases h1 : w = ""
          · simp [hr, h1, Ne.symm hv]
          · simp [hr, h1]

theorem toggle_of_untracked (cs : Completions) (id d : String)
    (h : getHabitState cs id d = none) :
    getHabitState (toggleCompletion cs id d) id d = some "done" := by
  rw [getHabitState_toggleCompletion, jsLookup_toggleRecord]
  rcases (getHabitState_eq_none_iff cs id d).mp h with h1 | h1 <;> simp [h1]

theorem toggle_of_done (cs : Completions) (id d : String)
    (h : getHabitState cs id d = some "done") :
    getHabitState (toggleCompletion cs id d) id d = some "skipped" := by
  rw [getHabitState_toggleCompletion, jsLookup_toggleRecord]
  have h1 := (getHabitState_eq_some_iff cs id d "done" (by simp)).mp h
  simp [h1]

theorem toggle_of_skipped (cs : Completions) (id d : String)
    (h : getHabitState cs id d = some "skipped") :
    getHabitState (toggleCompletion cs id d) id d = none := by
  rw [getHabitState_toggleCompletion, jsLookup_toggleRecord]
  have h1 := (getHabitState_eq_some_iff cs id d "skipped" (by simp)).mp h
  simp [h1]

/-- Claim C1: for every habit id, date key and starting cell state,
`toggleCompletion` is a strict 3-cycle on the cell — untracked goes to
`done`, `done` goes to `skipped`, and `skipped` returns to untracked with
the date key removed from the record; a habit with no completion entry
gets one; and three toggles starting from untracked observe exactly
`done, skipped, untracked`. -/
theorem toggleCompletion_three_cycle (cs : Completions) (id d : String) :
    (getHabitState cs id d = none →
        getHabitState (toggleCompletion cs id d) id d = some "done" ∧
        ∃ r, jsLookup (toggleCompletion cs id d) id = some r) ∧
    (getHabitState cs id d = some "done" →
        getHabitState (toggleCompletion cs id d) id d = some "skipped") ∧
    (getHabitState cs id d = some "skipped" →
        getHabitState (toggleCompletion cs id d) id d = none ∧
        ∀ r, jsLookup (toggleCompletion cs id d) id = some r →
          jsLookup r d = none) ∧
    (getHabitState cs id d = none →
        getHabitState (toggleCompletion cs id d) id d = some "done" ∧
        getHabitState (toggleCompletion (toggleCompletion cs id d) id d)
          id d = some "skipped" ∧
        getHabitState
          (toggleCompletion (toggleCompletion (toggleCompletion cs id d) id d)
            id d) id d = none) := by
  refine ⟨fun h => ⟨toggle_of_untracked cs id d h, ?_⟩,
    toggle_of_done cs id d, fun h => ⟨toggle_of_skipped cs id d h, ?_⟩, fun h => ?_⟩
  · exact ⟨_, jsLookup_jsSet_self ..⟩
  · intro r hr
    rw [toggleCompletion, jsLookup_jsSet_self] at hr
    cases hr
    rw [jsLookup_toggleRecord]
    have h1 := (getHabitState_eq_some_iff cs id d "skipped" (by simp)).mp h
    simp [h1]
  · have s1 := toggle_of_untracked cs id d h
    have s2 := toggle_of_done _ id d s1
    have s3 := toggle_of_skipped _ id d s2
    exact ⟨s1, s2, s3⟩

/-- Witness for C1 at the empty completion map: three toggles on a fresh
cell observe `done, skipped, untracked`. -/
theorem toggleCompletion_three_cycle_witness :
    getHabitState ([] : Completions) "a" "2024-01-01" = none ∧
    getHabitState (toggleCompletion [] "a" "2024-01-01") "a" "2024-01-01" =
      some "done" ∧
    getHabitState (toggleCompletion (toggleCompletion [] "a" "2024-01-01")
      "a" "2024-01-01") "a" "2024-01-01" = some "skipped" ∧
    getHabitState (toggleCompletion (toggleCompletion
      (toggleCompletion [] "a" "2024-01-01") "a" "2024-01-01") "a"
      "2024-01-01") "a" "2024-01-01" = none :=
  ⟨rfl, (toggleCompletion_three_cycle [] "a" "2024-01-01").2.2.2 rfl⟩

/-- Claim C10: `getHabitState` and `toggleCompletion` are total over ids
matching no habit — lookup on an unknown id reads untracked for every
date, toggling creates a fresh record mapping the date to `done`, and the
completion map then holds a key matching no habit in the list. -/
theorem toggle_getState_total_unknown_id (cs : Completions)
    (hs : List Habit) (id dateStr : String)
    (hid : jsLookup cs id = none) (hfree : ∀ h ∈ hs, h.id ≠ id) :
    (∀ d, getHabitState cs id d = none) ∧
    jsLookup (toggleCompletion cs id dateStr) id =
      some [(dateStr, "done")] ∧
    getHabitState (toggleCompletion cs id dateStr) id dateStr =
      some "done" ∧
    id ∈ (toggleCompletion cs id dateStr).map Prod.fst := by
  refine ⟨fun d => ?_, ?_, ?_, ?_⟩
  · simp [getHabitState, hid]
  · rw [toggleCompletion, hid]
    exact jsLookup_jsSet_self ..
  · rw [getHabitState_toggleCompletion, jsLookup_toggleRecord, hid]
    rfl
  · exact key_mem_of_jsLookup_some
      (by rw [toggleCompletion, hid]; exact jsLookup_jsSet_self ..)

/-- Witness for C10: toggling an id that matches no habit in an empty
state succeeds and records the cell as done. -/
theorem toggle_getState_total_unknown_id_witness :
    getHabitState ([] : Completions) "ghost" "2024-01-01" = none ∧
    jsLookup (toggleCompletion [] "ghost" "2024-01-01") "ghost" =
      some [("2024-01-01", "done")] ∧
    getHabitState (toggleCompletion [] "ghost" "2024-01-01") "ghost"
      "2024-01-01" = some "done" ∧
    "ghost" ∈ (toggleCompletion ([] : Completions) "ghost"
      "2024-01-01").map Prod.fst := by
  have h := toggle_getState_total_unknown_id [] [] "ghost" "2024-01-01"
    rfl (by simp)
  exact ⟨h.1 "2024-01-01", h.2.1, h.2.2.1, h.2.2.2⟩

/-- Claim C8: a name whose trimmed form is empty makes add a silent no-op;
neither the habit list nor the completion map changes. -/
theorem submitAddHabit_blank_noop (st : AppState) (nm newId ts : String)
    (h : jsTrim nm = "") : submitAddHabit st nm newId ts = st := by
  simp [submitAddHabit, h]

/-- Witness for C8: adding a whitespace-only name leaves the empty state
unchanged. -/
theorem submitAddHabit_blank_noop_witness :
    submitAddHabit ⟨[], []⟩ "   " "id1" "ts1" = ⟨[], []⟩ :=
  submitAddHabit_blank_noop ⟨[], []⟩ "   " "id1" "ts1" (by decide)

/-- Claim C6: `viewEnd ≤ today` is an invariant of every navigation step —
it holds at initialization and reset, is preserved by `pageBack`, and
`pageForward` clamps to today (unconditionally lands at or before today),
so iterating `pageForward` from today stays at today. -/
theorem viewEnd_never_past_today (today v : Int) (hv : v ≤ today) :
    initViewEnd today ≤ today ∧
    resetToToday today ≤ today ∧
    pageBack v ≤ today ∧
    pageForward today v ≤ today ∧
    (∀ w : Int, pageForward today w ≤ today) ∧
    pageForward today today = today ∧
    ∀ n : Nat, Nat.iterate (pageForward today) n today = today := by
  have hpf : ∀ w : Int, pageForward today w ≤ today := by
    intro w
    unfold pageForward
    split <;> omega
  have hfix : pageForward today today = today := by
    unfold pageForward
    rw [if_neg (by omega)]
  refine ⟨le_refl _, le_refl _, by unfold pageBack; omega, hpf v, hpf, hfix,
    fun n => ?_⟩
  induction n with
  | zero => rfl
  | succ m ih => rw [Function.iterate_succ_apply', ih, hfix]

/-- Witness for C6 at concrete dates: paging back stays at or before
today, and three forward pages from today stay at today. -/
theorem viewEnd_never_past_today_witness :
    pageBack 90 ≤ 100 ∧ pageForward 100 90 ≤ 100 ∧
    Nat.iterate (pageForward 100) 3 100 = 100 := by
  have h := viewEnd_never_past_today 100 90 (by decide)
  exact ⟨h.2.2.1, h.2.2.2.1, h.2.2.2.2.2.2 3⟩

/-! ### The completion-value invariant (claim C7) -/

theorem jsLookup_mem {l : List (String × α)} {k : String} {v : α}
    (h : jsLookup l k = some v) : (k, v) ∈ l := by
  unfold jsLookup at h
  cases hf : l.find? (fun p => p.1 = k) with
  | none => simp [hf] at h
  | some p =>
      have hmem := List.mem_of_find?_eq_some hf
      have hkey : p.1 = k := by simpa using List.find?_some hf
      rw [hf] at h
      have hval : p.2 = v := by simpa using h
      have : p = (k, v) := Prod.ext hkey hval
      exact this ▸ hmem

theorem values_ok_toggleRecord {r : HabitRecord} {d : String}
    (h : ∀ q ∈ r, q.2 = "done" ∨ q.2 = "skipped") :
    ∀ q ∈ toggleRecord r d, q.2 = "done" ∨ q.2 = "skipped" := by
  intro q hq
  unfold toggleRecord at hq
  cases hl : jsLookup r d with
  | none =>
      simp only [hl] at hq
      rcases mem_jsSet hq with h1 | h1
      · simp [h1]
      · exact h q h1
  | some v =>
      simp only [hl] at hq
      by_cases h1 : v = ""
      · rw [if_pos h1] at hq
        rcases mem_jsSet hq with h2 | h2
        · simp [h2]
        · exact h q h2
      · by_cases h2 : v = "done"
        · rw [if_neg h1, if_pos h2] at hq
          rcases mem_jsSet hq with h3 | h3
          · simp [h3]
          · exact h q h3
        · rw [if_neg h1, if_neg h2] at hq
          exact h q (mem_jsDelete hq)

theorem mem_foldl_jsSet_done {q : String × String} :
    ∀ (ds : List String) (acc : HabitRecord),
      q ∈ ds.foldl (fun m d => jsSet m d "done") acc →
      q ∈ acc ∨ q.2 = "done" := by
  intro ds
  induction ds with
  | nil => intro acc hq; exact Or.inl hq
  | cons d rest ih =>
      intro acc hq
      rcases ih (jsSet acc d "done") hq with h1 | h1
      · rcases mem_jsSet h1 with h2 | h2
        · simp [h2]
        · exact Or.inl h2
      · exact Or.inr h1

/-- Claim C7 (amended): the invariant "every stored cell value is `done`
or `skipped`" is preserved by toggle, add, delete and the legacy-array
migration.  Import-replace is `not` among the preserving operations: it
installs the payload's completions verbatim — see the counterexample. -/
theorem completion_invariant_preserved (st : AppState)
    (id d nm newId ts : String) (raw : List (String × StoredRecord))
    (hInv : CompletionValuesOk st.completions)
    (hraw : ∀ p ∈ raw, ∀ r, p.2 = StoredRecord.record r →
        ∀ q ∈ r, q.2 = "done" ∨ q.2 = "skipped") :
    CompletionValuesOk (toggleCompletion st.completions id d) ∧
    CompletionValuesOk (addHabit st nm newId ts).completions ∧
    CompletionValuesOk (deleteHabitConfirmed st id).completions ∧
    CompletionValuesOk (migrateCompletions raw) := by
  refine ⟨?_, ?_, ?_, ?_⟩
  · intro p hp
    rcases mem_jsSet hp with h1 | h1
    · subst h1
      refine values_ok_toggleRecord ?_
      cases hl : jsLookup st.completions id with
      | none => simp
      | some r =>
          intro q hq
          exact hInv (id, r) (jsLookup_mem hl) q (by simpa [hl] using hq)
    · exact hInv p h1
  · intro p hp
    rcases mem_jsSet hp with h1 | h1
    · simp [h1]
    · exact hInv p h1
  · intro p hp
    unfold deleteHabitConfirmed at hp
    cases hfind : st.habits.find? (fun h => h.id = id) with
    | none => exact hInv p (by rw [hfind] at hp; exact hp)
    | some _ =>
        rw [hfind] at hp
        exact hInv p (mem_jsDelete hp)
  · intro p hp
    unfold migrateCompletions at hp
    obtain ⟨q0, hq0, hq0p⟩ := List.mem_map.mp hp
    intro q hq
    cases hsr : q0.2 with
    | record r =>
        refine hraw q0 hq0 r hsr q ?_
        rw [← hq0p] at hq
        simpa [migrateRecord, hsr] using hq
    | dates ds =>
        rw [← hq0p] at hq
        simp only [migrateRecord, hsr] at hq
        rcases mem_foldl_jsSet_done ds [] hq with h1 | h1
        · simp at h1
        · exact Or.inl h1

/-- Witness for C7 (amended): toggling a fresh cell on a one-habit state
whose map satisfies the invariant keeps it satisfied. -/
theorem completion_invariant_preserved_witness :
    CompletionValuesOk
      (toggleCompletion [("a", [("2024-01-01", "done")])] "a"
        "2024-01-02") ∧
    CompletionValuesOk
      (migrateCompletions [("a", StoredRecord.dates ["2024-01-01"])]) := by
  have h := completion_invariant_preserved
    ⟨[], [("a", [("2024-01-01", "done")])]⟩ "a" "2024-01-02" "n" "b" "ts"
    [("a", StoredRecord.dates ["2024-01-01"])]
    (by decide) (by intro p hp r hr; simp at hp; simp [hp] at hr)
  exact ⟨h.1, h.2.2.2⟩

/-- The import payload showing that import-replace does not enforce the
cell-value invariant: `completions` is an object of objects, so the
validation of src/habit.js lines 501-516 accepts it, yet it stores the
value `"banana"`. -/
def bananaPayload : JVal :=
  .obj [("habits", .arr []),
        ("completions", .obj [("a", .obj [("2024-01-01", .str "banana")])])]

/-- Counterexample to C7 as stated: `importData` accepts a payload whose
completions hold the cell value `"banana"`, and the state installed by
the confirmed import branch violates the invariant. -/
theorem completion_invariant_import_counterexample :
    importData bananaPayload =
      .ok (.arr [], .obj [("a", .obj [("2024-01-01", .str "banana")])]) ∧
    decodeCompletions (.obj [("a", .obj [("2024-01-01", .str "banana")])]) =
      some [("a", [("2024-01-01", "banana")])] ∧
    ¬ CompletionValuesOk [("a", [("2024-01-01", "banana")])] := by
  refine ⟨rfl, rfl, fun h => ?_⟩
  have := h ("a", [("2024-01-01", "banana")]) (by simp)
    ("2024-01-01", "banana") (by simp)
  simp at this

/-! ### Import validation (claim C5) -/

theorem validHabitJ_eq_true_iff (h : JVal) :
    validHabitJ h = true ↔
      ((∃ s, s ≠ "" ∧ getFieldJ h "id" = .str s) ∧
       (∃ s, s ≠ "" ∧ getFieldJ h "name" = .str s)) := by
  unfold validHabitJ
  cases hid : getFieldJ h "id" <;> cases hnm : getFieldJ h "name" <;>
    simp [jsTruthy, isStringJ, and_comm]

theorem truthy_not_object_iff (v : JVal) :
    (jsTruthy v && !typeofObject v) = true ↔
      ((∃ s, s ≠ "" ∧ v = .str s) ∨ (∃ n, n ≠ 0 ∧ v = .num n) ∨
        v = .bool true) := by
  cases v <;> simp [jsTruthy, typeofObject, and_comm]

/-- Claim C5 (amended): import fails exactly when `habits` is missing or
not a sequence, or some habit entry lacks a non-empty string `id` or a
non-empty string `name`, or `completions` is present and truthy but not
of JS object type — that is, a non-empty string, a nonzero number, or
`true`.  An array or `null` under `completions` is accepted (`typeof`
calls both `'object'`), and a falsy primitive there is treated as absent.
In every failure case no change is applied to the in-memory pair. -/
theorem importData_failure_spec (data : JVal) (hv cv : JVal) :
    ((∃ e, importData data = .error e) ↔
      ((∀ hs, getFieldJ data "habits" ≠ .arr hs) ∨
       (∃ hs, getFieldJ data "habits" = .arr hs ∧
         ∃ h ∈ hs,
           (¬ ∃ s, s ≠ "" ∧ getFieldJ h "id" = .str s) ∨
           (¬ ∃ s, s ≠ "" ∧ getFieldJ h "name" = .str s)) ∨
       (∃ s, s ≠ "" ∧ getFieldJ data "completions" = .str s) ∨
       (∃ n, n ≠ 0 ∧ getFieldJ data "completions" = .num n) ∨
       getFieldJ data "completions" = .bool true)) ∧
    ∀ e, importData data = .error e → importFlow (hv, cv) data = (hv, cv) := by
  constructor
  · cases hH : getFieldJ data "habits" with
    | arr hs =>
        by_cases hall : hs.all validHabitJ
        · have hok : ∀ h ∈ hs, validHabitJ h = true := List.all_eq_true.mp hall
          constructor
          · intro ⟨e, he⟩
            simp only [importData, hH, if_pos hall] at he
            by_cases hc : (jsTruthy (getFieldJ data "completions") &&
                !typeofObject (getFieldJ data "completions")) = true
            · rcases (truthy_not_object_iff _).mp hc with h1 | h1 | h1
              · exact Or.inr (Or.inr (Or.inl h1))
              · exact Or.inr (Or.inr (Or.inr (Or.inl h1)))
              · exact Or.inr (Or.inr (Or.inr (Or.inr h1)))
            · rw [if_neg hc] at he
              exact Except.noConfusion he
          · intro hbad
            rcases hbad with h1 | h1 | h1 | h1 | h1
            · exact absurd rfl (h1 hs)
            · obtain ⟨hs', hhs', h, hmem, hb⟩ := h1
              injection hhs' with hhs''
              subst hhs''
              have hvh := (validHabitJ_eq_true_iff h).mp (hok h hmem)
              rcases hb with hb | hb
              · exact absurd hvh.1 hb
              · exact absurd hvh.2 hb
            · refine ⟨(), ?_⟩
              simp only [importData, hH, if_pos hall]
              rw [if_pos ((truthy_not_object_iff _).mpr (Or.inl h1))]
            · refine ⟨(), ?_⟩
              simp only [importData, hH, if_pos hall]
              rw [if_pos ((truthy_not_object_iff _).mpr (Or.inr (Or.inl h1)))]
            · refine ⟨(), ?_⟩
              simp only [importData, hH, if_pos hall]
              rw [if_pos ((truthy_not_object_iff _).mpr (Or.inr (Or.inr h1)))]
        · constructor
          · intro _
            obtain ⟨h, hmem, hbadb⟩ := List.all_eq_false.mp
              (Bool.eq_false_iff.mpr hall)
            refine Or.inr (Or.inl ⟨hs, rfl, h, hmem, ?_⟩)
            by_cases hcid : ∃ s, s ≠ "" ∧ getFieldJ h "id" = .str s
            · by_cases hcnm : ∃ s, s ≠ "" ∧ getFieldJ h "name" = .str s
              · exact absurd ((validHabitJ_eq_true_iff h).mpr ⟨hcid, hcnm⟩)
                  hbadb
              · exact Or.inr hcnm
            · exact Or.inl hcid
          · intro _
            refine ⟨(), ?_⟩
            simp only [importData, hH]
            rw [if_neg hall]
    | null =>
        exact ⟨fun _ => Or.inl (fun hs h => JVal.noConfusion h),
          fun _ => ⟨(), by simp only [importData, hH]⟩⟩
    | bool b =>
        exact ⟨fun _ => Or.inl (fun hs h => JVal.noConfusion h),
          fun _ => ⟨(), by simp only [importData, hH]⟩⟩
    | num n =>
        exact ⟨fun _ => Or.inl (fun hs h => JVal.noConfusion h),
          fun _ => ⟨(), by simp only [importData, hH]⟩⟩
    | str s =>
        exact ⟨fun _ => Or.inl (fun hs h => JVal.noConfusion h),
          fun _ => ⟨(), by simp only [importData, hH]⟩⟩
    | obj fs =>
        exact ⟨fun _ => Or.inl (fun hs h => JVal.noConfusion h),
          fun _ => ⟨(), by simp only [importData, hH]⟩⟩
  · intro e he
    unfold importFlow
    rw [he]

/-- Witness for C5 (amended): a payload whose `habits` value is a string
is rejected, and rejecting it leaves the in-memory pair untouched. -/
theorem importData_failure_spec_witness :
    (∃ e, importData (.obj [("habits", .str "zz")]) = .error e) ∧
    importFlow (.null, .null) (.obj [("habits", .str "zz")]) =
      (.null, .null) := by
  have h := importData_failure_spec (.obj [("habits", .str "zz")]) .null .null
  have he : importData (.obj [("habits", .str "zz")]) = .error () := rfl
  exact ⟨⟨(), he⟩, h.2 () he⟩

/-- The import payload whose `completions` is an array: present and not a
mapping, yet accepted by the validation (`typeof [] === 'object'`). -/
def arrayCompletionsPayload : JVal :=
  .obj [("habits", .arr []), ("completions", .arr [.num 1])]

/-- Counterexample to C5 as stated: a payload with `completions` present
but not a mapping (an array) does `not` fail — `importData` accepts it
and would install the array as the completion map. -/
theorem importData_array_completions_counterexample :
    importData arrayCompletionsPayload = .ok (.arr [], .arr [.num 1]) ∧
    isArrayJ (getFieldJ arrayCompletionsPayload "completions") = true ∧
    jsTruthy (getFieldJ arrayCompletionsPayload "completions") = true ∧
    ∀ e, importData arrayCompletionsPayload ≠ .error e := by
  refine ⟨rfl, rfl, rfl, fun e h => ?_⟩
  rw [show importData arrayCompletionsPayload =
    .ok (.arr [], .arr [.num 1]) from rfl] at h
  exact Except.noConfusion h

/-! ### Reorder (claim C4) -/

theorem perm_insertAt (l : List α) (n : Nat) (x : α) :
    (insertAt l n x).Perm (x :: l) := by
  induction l generalizing n with
  | nil => cases n <;> simp [insertAt]
  | cons a t ih =>
      cases n with
      | zero => simp [insertAt]
      | succ m =>
          simp only [insertAt]
          exact ((ih m).cons a).trans (List.Perm.swap x a t)

theorem perm_removeAt (l : List α) (n : Nat) (x : α) (h : l[n]? = some x) :
    l.Perm (x :: removeAt l n) := by
  induction l generalizing n with
  | nil => simp at h
  | cons a t ih =>
      cases n with
      | zero =>
          simp only [List.getElem?_cons_zero, Option.some.injEq] at h
          subst h
          simp [removeAt]
      | succ m =>
          simp only [List.getElem?_cons_succ] at h
          simp only [removeAt]
          exact ((ih m h).cons a).trans (List.Perm.swap x a (removeAt t m))

/-- The identity of each habit (everything but the reassigned `order`). -/
def habitKey (h : Habit) : String × String × String :=
  (h.id, h.name, h.createdAt)

theorem setOrders_map_key (l : List Habit) (k : Nat) :
    (setOrders l k).map habitKey = l.map habitKey := by
  induction l generalizing k with
  | nil => rfl
  | cons a t ih => simp [setOrders, habitKey, ih]

theorem setOrders_length (l : List Habit) (k : Nat) :
    (setOrders l k).length = l.length := by
  induction l generalizing k with
  | nil => rfl
  | cons a t ih => simp [setOrders, ih]

theorem setOrders_get_order (l : List Habit) (k i : Nat)
    (hi : i < (setOrders l k).length) :
    ((setOrders l k).get ⟨i, hi⟩).order = ((k + i : Nat) : Int) := by
  induction l generalizing k i with
  | nil => simp [setOrders] at hi
  | cons a t ih =>
      cases i with
      | zero => simp [setOrders]
      | succ m =>
          have hm : m < (setOrders t (k + 1)).length := by
            simpa [setOrders] using hi
          have := ih (k + 1) m hm
          simp only [setOrders, List.get_cons_succ]
          rw [this]
          congr 1
          omega

/-- Claim C4 (amended): provided the habit list is sorted by the `order`
field — which holds for every list the app itself maintains, since
`reorderHabits` reassigns positional orders — `reorderHabits` removes the
habit at `fromIndex` of the sorted-by-order view and reinserts it at
`toIndex`, and the result is a permutation of the original habits (no
habit added, removed or duplicated) whose `order` fields are exactly the
positions `0..n-1`.  On a list that is not sorted by `order` the splice
acts on stored positions instead — see the counterexample. -/
theorem reorderHabits_reorder_spec (l : List Habit) (f t : Nat)
    (hf : f < l.length) (ht : t < l.length)
    (hsorted : List.Sorted (fun a b => a.order ≤ b.order) l) :
    ∃ r, reorderHabits l f t = some r ∧
      claimedReorder l f t = some r ∧
      (r.map habitKey).Perm (l.map habitKey) ∧
      r.length = l.length ∧
      ∀ (i : Nat) (hi : i < r.length), (r.get ⟨i, hi⟩).order = (i : Int) := by
  have hx : l[f]? = some l[f] := List.getElem?_eq_getElem hf
  refine ⟨setOrders (insertAt (removeAt l f) t l[f]) 0, ?_, ?_, ?_, ?_, ?_⟩
  · rw [reorderHabits, hx]
    rfl
  · rw [claimedReorder, sortedByOrder, hsorted.insertionSort_eq, hx]
    rfl
  · rw [setOrders_map_key]
    exact ((perm_insertAt (removeAt l f) t l[f]).map habitKey).trans
      (((perm_removeAt l f l[f] hx).map habitKey).symm)
  · rw [setOrders_length]
    have := ((perm_insertAt (removeAt l f) t l[f]).trans
      (perm_removeAt l f l[f] hx).symm).length_eq
    simpa using this
  · intro i hi
    rw [setOrders_get_order]
    simp

/-- Witness for C4 (amended) on a concrete sorted two-habit list: moving
the first habit to position one permutes the pair and renumbers orders. -/
theorem reorderHabits_reorder_spec_witness :
    ∃ r, reorderHabits
        [{ id := "a", name := "A", order := 0, createdAt := "t" },
         { id := "b", name := "B", order := 1, createdAt := "t" }] 0 1 =
        some r ∧
      claimedReorder
        [{ id := "a", name := "A", order := 0, createdAt := "t" },
         { id := "b", name := "B", order := 1, createdAt := "t" }] 0 1 =
        some r ∧
      (r.map habitKey).Perm
        ([{ id := "a", name := "A", order := 0, createdAt := "t" },
          { id := "b", name := "B", order := 1, createdAt := "t" }].map
          habitKey) ∧
      r.length =
        ([{ id := "a", name := "A", order := 0, createdAt := "t" },
          { id := "b", name := "B", order := 1, createdAt := "t" }] :
          List Habit).length ∧
      ∀ (i : Nat) (hi : i < r.length), (r.get ⟨i, hi⟩).order = (i : Int) :=
  reorderHabits_reorder_spec
    [{ id := "a", name := "A", order := 0, createdAt := "t" },
     { id := "b", name := "B", order := 1, createdAt := "t" }] 0 1
    (by decide) (by decide) (by decide)

/-- A two-habit list that is not sorted by `order` (reachable by importing
a payload whose habits carry arbitrary `order` values). -/
def unsortedHabits : List Habit :=
  [{ id := "b", name := "B", order := 1, createdAt := "t" },
   { id := "a", name := "A", order := 0, createdAt := "t" }]

/-- Counterexample to C4 as stated: on a list not sorted by `order`,
`reorderHabits 0 1` splices the stored array — moving habit `"b"`, the
element at stored position 0 — whereas removing the habit at position 0
of the sorted-by-order view and reinserting it at position 1 would move
habit `"a"` and produce a different list. -/
theorem reorderHabits_sorted_view_counterexample :
    reorderHabits unsortedHabits 0 1 =
      some [{ id := "a", name := "A", order := 0, createdAt := "t" },
            { id := "b", name := "B", order := 1, createdAt := "t" }] ∧
    claimedReorder unsortedHabits 0 1 =
      some [{ id := "b", name := "B", order := 0, createdAt := "t" },
            { id := "a", name := "A", order := 1, createdAt := "t" }] ∧
    reorderHabits unsortedHabits 0 1 ≠ claimedReorder unsortedHabits 0 1 := by
  decide

/-! ### Export / import round trip (claim C9) -/

theorem decodeHabit_encodeHabit (h : Habit) :
    decodeHabit (encodeHabit h) = some h := rfl

theorem decodeHabits_encode (hs : List Habit) :
    decodeHabits (.arr (hs.map encodeHabit)) = some hs := by
  unfold decodeHabits
  induction hs with
  | nil => rfl
  | cons a t ih => simp only [List.map_cons, decodeHabitList,
      decodeHabit_encodeHabit] at ih ⊢; rw [ih]

theorem decodeRecord_encodeRecord (r : HabitRecord) :
    decodeRecord (encodeRecord r) = some r := by
  unfold decodeRecord encodeRecord
  induction r with
  | nil => rfl
  | cons a t ih => simp only [List.map_cons, decodeRecordFields] at ih ⊢; rw [ih]

theorem decodeCompletions_encode (cs : Completions) :
    decodeCompletions (encodeCompletions cs) = some cs := by
  unfold decodeCompletions encodeCompletions
  induction cs with
  | nil => rfl
  | cons a t ih =>
      simp only [List.map_cons, decodeCompletionFields,
        decodeRecord_encodeRecord] at ih ⊢
      rw [ih]

theorem validHabitJ_encodeHabit (h : Habit) (hid : h.id ≠ "")
    (hnm : h.name ≠ "") : validHabitJ (encodeHabit h) = true := by
  have h1 : getFieldJ (encodeHabit h) "id" = .str h.id := rfl
  have h2 : getFieldJ (encodeHabit h) "name" = .str h.name := rfl
  simp [validHabitJ, h1, h2, jsTruthy, isStringJ, hid, hnm]

/-- Claim C9: exporting the in-memory state and importing the produced
envelope with no edits reconstructs a habit list and completion map equal
to the originals — the payload validates, the habits and completions
carried by the accepted import are exactly the encodings of the current
state, and decoding them returns the original state.  (The envelope's
`version` and `exportedAt` wrapper fields are ignored by the import.) -/
theorem export_import_roundtrip (st : AppState) (ts : String)
    (hv : ∀ h ∈ st.habits, h.id ≠ "" ∧ h.name ≠ "") :
    importData (exportData ts st) =
      .ok (.arr (st.habits.map encodeHabit),
        encodeCompletions st.completions) ∧
    decodeHabits (.arr (st.habits.map encodeHabit)) = some st.habits ∧
    decodeCompletions (encodeCompletions st.completions) =
      some st.completions := by
  refine ⟨?_, decodeHabits_encode _, decodeCompletions_encode _⟩
  have hH : getFieldJ (exportData ts st) "habits" =
      .arr (st.habits.map encodeHabit) := rfl
  have hC : getFieldJ (exportData ts st) "completions" =
      encodeCompletions st.completions := rfl
  have hall : (st.habits.map encodeHabit).all validHabitJ = true := by
    rw [List.all_eq_true]
    intro x hx
    obtain ⟨h, hh, rfl⟩ := List.mem_map.mp hx
    exact validHabitJ_encodeHabit h (hv h hh).1 (hv h hh).2
  simp only [importData, hH, if_pos hall, hC]
  simp [jsTruthy, typeofObject, encodeCompletions]

/-- A concrete one-habit state with one completed cell, for the round-trip
witness. -/
def roundtripState : AppState :=
  { habits := [{ id := "a", name := "A", order := 0, createdAt := "t" }],
    completions := [("a", [("2024-01-01", "done")])] }

/-! ### Streak calculator: the current streak (claim C2) -/

theorem doneDates_nodup {entries : List DateEntry}
    (h : (entries.map Prod.fst).Nodup) : (doneDates entries).Nodup :=
  ((List.filter_sublist entries).map Prod.fst).nodup h

theorem sorted_gt_of_ge_nodup {l : List Int}
    (hs : List.Sorted (· ≥ ·) l) (hn : l.Nodup) :
    List.Sorted (· > ·) l :=
  (hs.and hn).imp (fun h => lt_of_le_of_ne h.1 (Ne.symm h.2))

/-- Walking the strictly descending tail of the sorted done dates, the
current-streak loop counts exactly the backward run of consecutive
calendar days anchored at the head: every day in the counted range is
present and the day just past the run is absent. -/
theorem currentLoop_run (d : Int) (rest : List Int)
    (hs : List.Sorted (· > ·) (d :: rest)) :
    (∀ j : Nat, j < currentLoop d rest + 1 → d - (j : Int) ∈ d :: rest) ∧
    d - ((currentLoop d rest + 1 : Nat) : Int) ∉ d :: rest := by
  induction rest generalizing d with
  | nil =>
      refine ⟨fun j hj => ?_, ?_⟩
      · have hj0 : j = 0 := by
          simp only [currentLoop] at hj
          omega
        subst hj0
        simp
      · simp only [currentLoop]
        intro hmem
        simp only [List.mem_singleton] at hmem
        omega
  | cons e rest' ih =>
      have hde : d > e := List.rel_of_sorted_cons hs e (by simp)
      have hs' : List.Sorted (· > ·) (e :: rest') := hs.tail
      by_cases hgap : d - e = 1
      · have heq : currentLoop d (e :: rest') = currentLoop e rest' + 1 := by
          simp [currentLoop, hgap]
        obtain ⟨ihm, ihb⟩ := ih e hs'
        refine ⟨fun j hj => ?_, ?_⟩
        · rw [heq] at hj
          cases j with
          | zero => simp
          | succ m =>
              have hm : m < currentLoop e rest' + 1 := by omega
              have hmem := ihm m hm
              have hcast : d - ((m + 1 : Nat) : Int) = e - (m : Int) := by
                push_cast
                omega
              rw [hcast]
              exact List.mem_cons_of_mem d hmem
        · rw [heq]
          intro hmem
          have hcast : d - ((currentLoop e rest' + 1 + 1 : Nat) : Int) =
              e - ((currentLoop e rest' + 1 : Nat) : Int) := by
            push_cast
            omega
          rw [hcast] at hmem
          rcases List.mem_cons.mp hmem with h1 | h1
          · have hpos : (0 : Int) < ((currentLoop e rest' + 1 : Nat) : Int) := by
              push_cast
              omega
            omega
          · exact ihb h1
      · have heq : currentLoop d (e :: rest') = 0 := by
          simp [currentLoop, hgap]
        refine ⟨fun j hj => ?_, ?_⟩
        · rw [heq] at hj
          have hj0 : j = 0 := by omega
          subst hj0
          simp
        · rw [heq]
          intro hmem
          have hone : d - ((0 + 1 : Nat) : Int) = d - 1 := by push_cast; omega
          rw [hone] at hmem
          rcases List.mem_cons.mp hmem with h1 | h1
          · omega
          · rcases List.mem_cons.mp h1 with h2 | h2
            · omega
            · have := List.rel_of_sorted_cons hs' _ h2
              omega

/-- Claim C2: the current streak is 0 when there is no done date or when
the most recent done date is neither today nor yesterday; otherwise it is
positive and counts exactly the maximal backward run of done dates one
calendar day apart starting at the most recent one (anchor inclusive) —
every day inside the counted range is a done date and the day just past
it is not.  Only dates with state `done` play any role, so skipped dates
never extend a run across a gap. -/
theorem calculateStreak_current_spec (today : Int)
    (entries : List DateEntry) (hnd : (entries.map Prod.fst).Nodup) :
    (doneDates entries = [] → (calculateStreak today entries).current = 0) ∧
    (∀ M, M ∈ doneDates entries → (∀ x ∈ doneDates entries, x ≤ M) →
      ((M ≠ today ∧ M ≠ today - 1) →
        (calculateStreak today entries).current = 0) ∧
      ((M = today ∨ M = today - 1) →
        0 < (calculateStreak today entries).current ∧
        (∀ j : Nat, j < (calculateStreak today entries).current →
          M - (j : Int) ∈ doneDates entries) ∧
        M - (((calculateStreak today entries).current : Nat) : Int) ∉
          doneDates entries)) := by
  constructor
  · intro h
    simp [calculateStreak, h]
  · intro M hM hmax
    have hne : doneDates entries ≠ [] := by
      intro h
      rw [h] at hM
      exact absurd hM (List.not_mem_nil M)
    have hcur : (calculateStreak today entries).current =
        computeCurrent today (doneDates entries) := by
      simp [calculateStreak, hne]
    have hnodup := doneDates_nodup hnd
    have hperm := List.perm_insertionSort (· ≥ ·) (doneDates entries)
    have hsorted := List.sorted_insertionSort (· ≥ ·) (doneDates entries)
    have hsnodup := hperm.symm.nodup hnodup
    have hstrict := sorted_gt_of_ge_nodup hsorted hsnodup
    cases hsl : (doneDates entries).insertionSort (· ≥ ·) with
    | nil =>
        rw [hsl] at hperm
        exact absurd hperm.symm.eq_nil hne
    | cons d0 rest =>
        rw [hsl] at hperm hstrict
        have hMd0 : M = d0 := by
          have h1 : d0 ≤ M := hmax d0 (hperm.mem_iff.mp (by simp))
          have h2 : M ∈ d0 :: rest := hperm.mem_iff.mpr hM
          rcases List.mem_cons.mp h2 with h3 | h3
          · exact h3
          · have := List.rel_of_sorted_cons hstrict M h3
            omega
        subst hMd0
        have hcc : computeCurrent today (doneDates entries) =
            if M = today ∨ M = today - 1 then currentLoop M rest + 1
            else 0 := by
          simp [computeCurrent, hsl]
        constructor
        · intro h12
          rw [hcur, hcc, if_neg (by tauto)]
        · intro hanchor
          obtain ⟨hrunmem, hrunb⟩ := currentLoop_run M rest hstrict
          rw [hcur, hcc, if_pos hanchor]
          refine ⟨by omega, fun j hj => ?_, fun hmem => ?_⟩
          · exact hperm.mem_iff.mp (hrunmem j hj)
          · exact hrunb (hperm.mem_iff.mpr hmem)

/-- Concrete completion entries for the C2 witness: done on days 7, 9 and
10 (day numbers). -/
def currentWitnessEntries : List DateEntry :=
  [(10, "done"), (9, "done"), (7, "done")]

/-- Witness for C2: with today = 10, the current streak over
`currentWitnessEntries` is positive and maximal (the day just past the
counted run is not a done date). -/
theorem calculateStreak_current_spec_witness :
    0 < (calculateStreak 10 currentWitnessEntries).current ∧
    (10 : Int) -
        (((calculateStreak 10 currentWitnessEntries).current : Nat) : Int) ∉
      doneDates currentWitnessEntries := by
  have h := calculateStreak_current_spec 10 currentWitnessEntries (by decide)
  have h2 := (h.2 10 (by decide) (by decide)).2 (Or.inl rfl)
  exact ⟨h2.1, h2.2.2⟩

/-! ### Streak calculator: the longest streak (claim C3) -/

/-- Length of the run of consecutive members of `S` starting at `d` and
walking downward: how many of `d, d - 1, d - 2, ...` in turn belong to
`S`. -/
def runEnd (S : Finset Int) (d : Int) : Nat :=
  if h : d ∈ S then runEnd (S.erase d) (d - 1) + 1 else 0
termination_by S.card
decreasing_by exact Finset.card_erase_lt_of_mem h

theorem runEnd_erase_of_lt_aux :
    ∀ (n : Nat) (S : Finset Int) (x d : Int), S.card ≤ n → d < x →
      runEnd (S.erase x) d = runEnd S d := by
  intro n
  induction n with
  | zero =>
      intro S x d hcard hlt
      have hS : S = ∅ := Finset.card_eq_zero.mp (Nat.le_zero.mp hcard)
      subst hS
      rw [Finset.erase_empty]
  | succ m ih =>
      intro S x d hcard hlt
      by_cases hd : d ∈ S
      · have hdx : d ≠ x := by omega
        have hd' : d ∈ S.erase x := Finset.mem_erase.mpr ⟨hdx, hd⟩
        conv_lhs => rw [runEnd, dif_pos hd']
        conv_rhs => rw [runEnd, dif_pos hd]
        congr 1
        rw [Finset.erase_right_comm]
        exact ih (S.erase d) x (d - 1)
          (by have := Finset.card_erase_of_mem hd; omega) (by omega)
      · have hd' : d ∉ S.erase x := fun hc => hd (Finset.mem_of_mem_erase hc)
        rw [runEnd, dif_neg hd', runEnd, dif_neg hd]

theorem runEnd_erase_gt (S : Finset Int) (x d : Int) (h : d < x) :
    runEnd (S.erase x) d = runEnd S d :=
  runEnd_erase_of_lt_aux S.card S x d le_rfl h

theorem runEnd_succ_mem (S : Finset Int) (d : Int) (hd : d ∈ S) :
    runEnd S d = runEnd S (d - 1) + 1 := by
  rw [runEnd, dif_pos hd, runEnd_erase_gt S d (d - 1) (by omega)]

theorem runEnd_not_mem (S : Finset Int) (d : Int) (hd : d ∉ S) :
    runEnd S d = 0 := by
  rw [runEnd, dif_neg hd]

theorem runEnd_mem_aux :
    ∀ (n : Nat) (S : Finset Int) (d : Int), S.card ≤ n →
      ∀ j : Nat, j < runEnd S d → d - (j : Int) ∈ S := by
  intro n
  induction n with
  | zero =>
      intro S d hcard j hj
      have hS : S = ∅ := Finset.card_eq_zero.mp (Nat.le_zero.mp hcard)
      subst hS
      rw [runEnd_not_mem _ _ (Finset.not_mem_empty d)] at hj
      omega
  | succ m ih =>
      intro S d hcard j hj
      by_cases hd : d ∈ S
      · rw [runEnd, dif_pos hd] at hj
        cases j with
        | zero => simpa using hd
        | succ i =>
            have hi : i < runEnd (S.erase d) (d - 1) := by omega
            have hmem := ih (S.erase d) (d - 1)
              (by have := Finset.card_erase_of_mem hd; omega) i hi
            have hcast : d - ((i + 1 : Nat) : Int) = (d - 1) - (i : Int) := by
              push_cast
              omega
            rw [hcast]
            exact Finset.mem_of_mem_erase hmem
      · rw [runEnd_not_mem _ _ hd] at hj
        omega

theorem runEnd_mem (S : Finset Int) (d : Int) :
    ∀ j : Nat, j < runEnd S d → d - (j : Int) ∈ S :=
  runEnd_mem_aux S.card S d le_rfl

theorem runEnd_boundary_aux :
    ∀ (n : Nat) (S : Finset Int) (d : Int), S.card ≤ n →
      d - ((runEnd S d : Nat) : Int) ∉ S := by
  intro n
  induction n with
  | zero =>
      intro S d hcard
      have hS : S = ∅ := Finset.card_eq_zero.mp (Nat.le_zero.mp hcard)
      subst hS
      exact Finset.not_mem_empty _
  | succ m ih =>
      intro S d hcard
      by_cases hd : d ∈ S
      · rw [runEnd, dif_pos hd]
        intro hc
        have hb := ih (S.erase d) (d - 1)
          (by have := Finset.card_erase_of_mem hd; omega)
        have hcast : d - ((runEnd (S.erase d) (d - 1) + 1 : Nat) : Int) =
            (d - 1) - ((runEnd (S.erase d) (d - 1) : Nat) : Int) := by
          push_cast
          omega
        rw [hcast] at hc
        exact hb (Finset.mem_erase.mpr ⟨by omega, hc⟩)
      · rw [runEnd_not_mem _ _ hd]
        simpa using hd

theorem runEnd_boundary (S : Finset Int) (d : Int) :
    d - ((runEnd S d : Nat) : Int) ∉ S :=
  runEnd_boundary_aux S.card S d le_rfl

theorem runEnd_ge (S : Finset Int) (d : Int) (k : Nat)
    (h : ∀ j : Nat, j < k → d - (j : Int) ∈ S) : k ≤ runEnd S d := by
  by_contra hlt
  push_neg at hlt
  exact runEnd_boundary S d (h (runEnd S d) hlt)

theorem runEnd_pos (S : Finset Int) (d : Int) (hd : d ∈ S) :
    1 ≤ runEnd S d := by
  rw [runEnd_succ_mem S d hd]
  omega

/-- Maximum of `runEnd S` over a list of anchors. -/
def maxRunEnd (S : Finset Int) (l : List Int) : Nat :=
  l.foldr (fun x m => max (runEnd S x) m) 0

theorem maxRunEnd_nil (S : Finset Int) : maxRunEnd S [] = 0 := rfl

theorem maxRunEnd_cons (S : Finset Int) (x : Int) (l : List Int) :
    maxRunEnd S (x :: l) = max (runEnd S x) (maxRunEnd S l) := rfl

theorem le_maxRunEnd {S : Finset Int} {l : List Int} {x : Int}
    (hx : x ∈ l) : runEnd S x ≤ maxRunEnd S l := by
  induction l with
  | nil => simp at hx
  | cons a t ih =>
      rcases List.mem_cons.mp hx with h | h
      · subst h
        rw [maxRunEnd_cons]
        omega
      · rw [maxRunEnd_cons]
        have := ih h
        omega

theorem maxRunEnd_append (S : Finset Int) (l1 l2 : List Int) :
    maxRunEnd S (l1 ++ l2) = max (maxRunEnd S l1) (maxRunEnd S l2) := by
  induction l1 with
  | nil =>
      rw [List.nil_append, maxRunEnd_nil]
      omega
  | cons a t ih =>
      rw [List.cons_append, maxRunEnd_cons, ih, maxRunEnd_cons]
      omega

theorem maxRunEnd_attained {S : Finset Int} {l : List Int} (hne : l ≠ []) :
    ∃ x ∈ l, maxRunEnd S l = runEnd S x := by
  induction l with
  | nil => exact absurd rfl hne
  | cons a t ih =>
      cases t with
      | nil =>
          refine ⟨a, by simp, ?_⟩
          rw [maxRunEnd_cons, maxRunEnd_nil]
          omega
      | cons b t' =>
          obtain ⟨x, hx, hxe⟩ := ih (by simp)
          rw [maxRunEnd_cons]
          rcases Nat.le_total (runEnd S a) (maxRunEnd S (b :: t')) with h | h
          · exact ⟨x, List.mem_cons_of_mem a hx,
              by rw [Nat.max_eq_right h, hxe]⟩
          · exact ⟨a, by simp, by rw [Nat.max_eq_left h]⟩

/-- The invariant of the longest-streak scan over the strictly ascending
sorted done dates: given that `temp` is the run length ending at the
previous element and `longest` is the maximal run length ending at any
element seen so far, the loop returns the maximal run length ending at
any element of the whole list. -/
theorem longestLoop_spec :
    ∀ (rest pre : List Int) (prev : Int) (temp longest : Nat)
      (S : Finset Int),
      List.Sorted (· < ·) (pre ++ prev :: rest) →
      (∀ x : Int, x ∈ S ↔ x ∈ pre ++ prev :: rest) →
      temp = runEnd S prev →
      longest = maxRunEnd S (pre ++ [prev]) →
      longestLoop prev temp longest rest =
        maxRunEnd S (pre ++ prev :: rest) := by
  intro rest
  induction rest with
  | nil =>
      intro pre prev temp longest S hsort hmem htemp hlong
      simpa [longestLoop] using hlong
  | cons d rest' ih =>
      intro pre prev temp longest S hsort hmem htemp hlong
      have hsuffix : List.Sorted (· < ·) (prev :: d :: rest') :=
        (List.pairwise_append.mp hsort).2.1
      have hprevd : prev < d := List.rel_of_sorted_cons hsuffix d (by simp)
      have hdS : d ∈ S := (hmem d).mpr (by simp)
      have hprevS : prev ∈ S := (hmem prev).mpr (by simp)
      have hassoc : pre ++ prev :: d :: rest' =
          (pre ++ [prev]) ++ d :: rest' := by
        simp
      have hsort2 : List.Sorted (· < ·) ((pre ++ [prev]) ++ d :: rest') := by
        rw [← hassoc]
        exact hsort
      have hmem2 : ∀ x : Int, x ∈ S ↔ x ∈ (pre ++ [prev]) ++ d :: rest' := by
        intro x
        rw [← hassoc]
        exact hmem x
      have hlong1 : 1 ≤ longest := by
        rw [hlong]
        calc 1 ≤ runEnd S prev := runEnd_pos S prev hprevS
          _ ≤ maxRunEnd S (pre ++ [prev]) := le_maxRunEnd (by simp)
      by_cases hgap : d - prev = 1
      · have hrun : runEnd S d = runEnd S prev + 1 := by
          rw [runEnd_succ_mem S d hdS, show d - 1 = prev from by omega]
        have hloop : longestLoop prev temp longest (d :: rest') =
            longestLoop d (temp + 1) (max longest (temp + 1)) rest' := by
          simp [longestLoop, hgap]
        rw [hloop, hassoc]
        apply ih (pre ++ [prev]) d (temp + 1) (max longest (temp + 1)) S
          hsort2 hmem2
        · rw [htemp, ← hrun]
        · rw [maxRunEnd_append, maxRunEnd_cons, maxRunEnd_nil, ← hlong,
            hrun, ← htemp]
          omega
      · have hgt : d - prev > 1 := by omega
        have hloop : longestLoop prev temp longest (d :: rest') =
            longestLoop d 1 longest rest' := by
          simp [longestLoop, hgap, hgt]
        have hd1 : (d - 1 : Int) ∉ S := by
          intro hc
          rw [hmem] at hc
          simp only [List.mem_append, List.mem_cons] at hc
          rcases hc with h1 | h1 | h1 | h1
          · have := (List.pairwise_append.mp hsort).2.2 _ h1 prev (by simp)
            omega
          · omega
          · omega
          · have := List.rel_of_sorted_cons hsuffix.tail _ h1
            omega
        have hrund : runEnd S d = 1 := by
          rw [runEnd_succ_mem S d hdS, runEnd_not_mem S _ hd1]
        rw [hloop, hassoc]
        apply ih (pre ++ [prev]) d 1 longest S hsort2 hmem2
        · rw [hrund]
        · rw [maxRunEnd_append, maxRunEnd_cons, maxRunEnd_nil, ← hlong, hrund]
          omega

/-- The completion map of the spec's concrete example, with dates as epoch
day numbers: 2024-01-01 (day 19723) done, 2024-01-02 done, 2024-01-03
skipped, 2024-01-04 done. -/
def streakExample : List DateEntry :=
  [(19723, "done"), (19724, "done"), (19725, "skipped"), (19726, "done")]

/-- Claim C3: with no done date the longest streak is 0; otherwise it is
at least 1 and is exactly the maximal length of a run of consecutive
calendar days all of which are done dates — some run of that length
exists, and every run of consecutive done dates is no longer.  On the
spec's example map (done, done, skipped, done on four consecutive days),
with today the fourth day, the result is current = 1 and longest = 2. -/
theorem calculateStreak_longest_spec (today : Int)
    (entries : List DateEntry) (hnd : (entries.map Prod.fst).Nodup) :
    ((doneDates entries = [] →
        (calculateStreak today entries).longest = 0) ∧
     (doneDates entries ≠ [] →
        1 ≤ (calculateStreak today entries).longest ∧
        (∃ d : Int, ∀ j : Nat, j < (calculateStreak today entries).longest →
          d + (j : Int) ∈ doneDates entries) ∧
        (∀ (d : Int) (k : Nat),
          (∀ j : Nat, j < k → d + (j : Int) ∈ doneDates entries) →
          k ≤ (calculateStreak today entries).longest))) ∧
    calculateStreak 19726 streakExample = ⟨1, 2⟩ := by
  refine ⟨⟨fun h => by simp [calculateStreak, h], fun hne => ?_⟩, by decide⟩
  have hlong : (calculateStreak today entries).longest =
      computeLongest (doneDates entries) := by
    simp [calculateStreak, hne]
  have hnodup := doneDates_nodup hnd
  have hperm := List.perm_insertionSort (· ≤ ·) (doneDates entries)
  have hsorted := List.sorted_insertionSort (· ≤ ·) (doneDates entries)
  have hsnodup := hperm.symm.nodup hnodup
  have hstrict : List.Sorted (· < ·)
      ((doneDates entries).insertionSort (· ≤ ·)) :=
    hsorted.lt_of_le hsnodup
  cases hsl : (doneDates entries).insertionSort (· ≤ ·) with
  | nil =>
      rw [hsl] at hperm
      exact absurd hperm.symm.eq_nil hne
  | cons d0 rest =>
      rw [hsl] at hperm hstrict
      have hddS : ∀ x : Int, x ∈ doneDates entries ↔
          x ∈ (doneDates entries).toFinset :=
        fun x => (List.mem_toFinset).symm
      have hmemS : ∀ x : Int, x ∈ (doneDates entries).toFinset ↔
          x ∈ d0 :: rest := by
        intro x
        rw [List.mem_toFinset]
        exact (hperm.mem_iff).symm
      have hd0S : d0 ∈ (doneDates entries).toFinset :=
        (hmemS d0).mpr (by simp)
      have hd0min : (d0 - 1 : Int) ∉ (doneDates entries).toFinset := by
        intro hc
        rw [hmemS] at hc
        rcases List.mem_cons.mp hc with h1 | h1
        · omega
        · have := List.rel_of_sorted_cons hstrict _ h1
          omega
      have hrun1 : runEnd (doneDates entries).toFinset d0 = 1 := by
        rw [runEnd_succ_mem _ d0 hd0S, runEnd_not_mem _ _ hd0min]
      have hcl : computeLongest (doneDates entries) =
          longestLoop d0 1 1 rest := by
        simp [computeLongest, hsl]
      have hmain : longestLoop d0 1 1 rest =
          maxRunEnd (doneDates entries).toFinset (d0 :: rest) := by
        have hres := longestLoop_spec rest [] d0 1 1
          (doneDates entries).toFinset (by simpa using hstrict)
          (by intro x; simpa using hmemS x) hrun1.symm
          (by rw [List.nil_append, maxRunEnd_cons, maxRunEnd_nil, hrun1]; omega)
        simpa using hres
      rw [hlong, hcl, hmain]
      refine ⟨?_, ?_, ?_⟩
      · calc 1 = runEnd (doneDates entries).toFinset d0 := hrun1.symm
          _ ≤ maxRunEnd (doneDates entries).toFinset (d0 :: rest) :=
            le_maxRunEnd (by simp)
      · obtain ⟨e, he, hee⟩ :=
          maxRunEnd_attained (S := (doneDates entries).toFinset)
            (l := d0 :: rest) (by simp)
        have heS : e ∈ (doneDates entries).toFinset := (hmemS e).mpr he
        have h1L : 1 ≤ maxRunEnd (doneDates entries).toFinset (d0 :: rest) := by
          rw [hee]
          exact runEnd_pos _ e heS
        refine ⟨e - ((maxRunEnd (doneDates entries).toFinset
          (d0 :: rest) : Nat) : Int) + 1, fun j hj => ?_⟩
        have hm : maxRunEnd (doneDates entries).toFinset (d0 :: rest) - 1 - j <
            runEnd (doneDates entries).toFinset e := by
          rw [← hee]
          omega
        have hmem := runEnd_mem _ e _ hm
        have hcast : e - ((maxRunEnd (doneDates entries).toFinset (d0 :: rest)
              - 1 - j : Nat) : Int) =
            e - ((maxRunEnd (doneDates entries).toFinset
              (d0 :: rest) : Nat) : Int) + 1 + (j : Int) := by
          omega
        rw [hcast] at hmem
        exact (hddS _).mpr hmem
      · intro d k hk
        cases k with
        | zero => omega
        | succ i =>
            have htS : d + (i : Int) ∈ (doneDates entries).toFinset :=
              (hddS _).mp (hk i (by omega))
            have hge : i + 1 ≤ runEnd (doneDates entries).toFinset
                (d + (i : Int)) := by
              apply runEnd_ge
              intro j hj
              have hcast : d + (i : Int) - (j : Int) =
                  d + ((i - j : Nat) : Int) := by
                omega
              rw [hcast]
              exact (hddS _).mp (hk (i - j) (by omega))
            calc i + 1 ≤ runEnd (doneDates entries).toFinset (d + (i : Int)) :=
                hge
              _ ≤ maxRunEnd (doneDates entries).toFinset (d0 :: rest) :=
                le_maxRunEnd ((hmemS _).mp htS)

/-- Witness for C3: the longest streak of the spec's example is bounded by
every run of consecutive done days, and a run of its length exists. -/
theorem calculateStreak_longest_spec_witness :
    1 ≤ (calculateStreak 19726 streakExample).longest ∧
    (∃ d : Int, ∀ j : Nat, j < (calculateStreak 19726 streakExample).longest →
      d + (j : Int) ∈ doneDates streakExample) ∧
    calculateStreak 19726 streakExample = ⟨1, 2⟩ := by
  have h := calculateStreak_longest_spec 19726 streakExample (by decide)
  have h2 := h.1.2 (by decide)
  exact ⟨h2.1, h2.2.1, h.2⟩

/-- Witness for C9: the round trip on the concrete state. -/
theorem export_import_roundtrip_witness :
    importData (exportData "2024-02-02T00:00:00.000Z" roundtripState) =
      .ok (.arr (roundtripState.habits.map encodeHabit),
        encodeCompletions roundtripState.completions) ∧
    decodeHabits (.arr (roundtripState.habits.map encodeHabit)) =
      some roundtripState.habits ∧
    decodeCompletions (encodeCompletions roundtripState.completions) =
      some roundtripState.completions :=
  export_import_roundtrip roundtripState "2024-02-02T00:00:00.000Z"
    (by decide)
